import Mathlib

/-!
Shallow embedding of the equalizer parameter validation and comparison logic of
src/audio/aidl/vts/VtsHalEqualizerTargetTest.cpp, together with theorems
settling the frozen claims about it.

Modelling conventions:
* C++ int fields are modelled as Int (the claims only involve small values,
  far from the 32-bit bounds).
* The AIDL-generated union accessor get with a tag different from the stored
  one aborts the process (the generated accessor asserts on a wrong tag); a
  function whose execution can reach such an access is modelled as returning
  Option, with none standing for that abort.  Likewise dereferencing the end
  iterator returned by std::minmax_element on an empty range (undefined
  behaviour) is modelled as none.
* gtest EXPECT_* macros are non fatal: they record a failed check and let the
  function continue.  The recorded checks are modelled as explicit Bool
  results where needed; the control flow never depends on them.
-/

/-- Equalizer.BandLevel parcelable: a pair of an int band index and an int
level in millibel.  The generated comparison operators compare the fields
lexicographically in declaration order (index, then levelMb). -/
structure BandLevel where
  index : Int
  levelMb : Int
deriving DecidableEq, Repr

/-- The Equalizer AIDL union (aidl EqualizerSetting in the spec): exactly one
of a vendor extension, a preset index, or a list of band levels.  The vendor
extension payload is never constructed by the test; it is abstracted as an
opaque Nat so that structural equality of two vendor values still depends on
the payload. -/
inductive Equalizer where
  | vendor (extension : Nat)
  | preset (index : Int)
  | bandLevels (levels : List BandLevel)
deriving DecidableEq, Repr

/-- Equalizer.Tag: the discriminant of the Equalizer union. -/
inductive EqualizerTag where
  | vendor
  | preset
  | bandLevels
deriving DecidableEq, Repr

/-- The generated operator less-than of Equalizer.BandLevel: lexicographic on
(index, levelMb).  This is the comparator std.includes uses in
isEqParameterExpected, since the call passes no custom comparator. -/
def blLtB (a b : BandLevel) : Bool :=
  decide (a.index < b.index ∨ (a.index = b.index ∧ a.levelMb < b.levelMb))

/-- Stable insertion of a band level into a list, ordered by the comparator of
line 185 of the source (a.index < b.index).  Together with sortByIndex this is
one deterministic refinement of std.sort with that comparator: std.sort may
order elements of equal index arbitrarily, and the stable order is one of the
allowed outcomes. -/
def insertBL (x : BandLevel) : List BandLevel → List BandLevel
  | [] => [x]
  | y :: ys => if x.index ≤ y.index then x :: y :: ys else y :: insertBL x ys

/-- std.sort of line 184-185 of the source, with comparator a.index < b.index,
refined to a deterministic (stable) insertion sort. -/
def sortByIndex : List BandLevel → List BandLevel
  | [] => []
  | x :: xs => insertBL x (sortByIndex xs)

/-- Helper for stdUnique: std.unique keeps the first element of every run of
consecutive elements equal to the last kept element.  The equality used is the
generated operator equality of BandLevel, i.e. equality of both fields. -/
def stdUniqueAux (prev : BandLevel) : List BandLevel → List BandLevel
  | [] => []
  | b :: rest => if prev = b then stdUniqueAux prev rest
                 else b :: stdUniqueAux b rest

/-- The effect of expectBl.erase(std.unique(...), end) on line 186 of the
source: remove every element equal (as a whole (index, levelMb) pair - no
predicate is passed to std.unique) to the element kept just before it. -/
def stdUnique : List BandLevel → List BandLevel
  | [] => []
  | a :: rest => a :: stdUniqueAux a rest

/-- The normalization the source applies to the expected band list before the
subset test (lines 184-186): sort by index, then erase consecutive duplicates
(whole-pair equality). -/
def normalizeBandLevels (l : List BandLevel) : List BandLevel :=
  stdUnique (sortByIndex l)

/-- std.includes(first1,last1,first2,last2) with the default comparator (the
generated lexicographic operator less-than of BandLevel), exactly the merge
walk of the standard algorithm: both iterators advance when neither element is
strictly below the other, only the first advances when its element is strictly
below, and the walk answers false as soon as the second range's element is
strictly below the first range's one or the first range runs out. -/
def includes : List BandLevel → List BandLevel → Bool
  | _, [] => true
  | [], _ :: _ => false
  | a :: t1, b :: t2 =>
    if blLtB b a then false
    else if blLtB a b then includes t1 (b :: t2)
    else includes t1 t2

/-- isEqParameterExpected (source lines 159-198), expressed on the equalizer
payload.  In the source the two arguments are Parameter values, but every
Parameter the test constructs, and every Parameter this comparison is asked
about by the claims, wraps an Equalizer as
Parameter.specific(Parameter.Specific.equalizer eq); the outer unwrapping
(lines 168-177) then always succeeds and structural equality of the wrapped
values coincides with structural equality of the payloads, so the function is
stated on the payloads.  The switch is on the tag of target (line 180-181);
inside a branch, reading expect with a different stored variant is the
aborting wrong-tag union access, modelled as none.  The gtest EXPECT_EQ calls
of lines 168-178 record failures but do not alter the result. -/
def isEqParameterExpected (expect target : Equalizer) : Option Bool :=
  if expect = target then some true
  else
    match target with
    | Equalizer.bandLevels targetBl =>
      match expect with
      | Equalizer.bandLevels expectBl =>
        some (includes targetBl (normalizeBandLevels expectBl))
      | _ => none
    | Equalizer.preset tp =>
      match expect with
      | Equalizer.preset ep => some (decide (ep = tp))
      | _ => none
    | Equalizer.vendor _ => some false

/-- isBandInRange (source lines 228-233): walk the list, answer false at the
first entry whose index is outside the inclusive band index range, true when
the walk completes. -/
def isBandInRange (mBandIndex : Int × Int) : List BandLevel → Bool
  | [] => true
  | it :: rest =>
    if it.index < mBandIndex.1 ∨ it.index > mBandIndex.2 then false
    else isBandInRange mBandIndex rest

/-- isTagInRange (source lines 212-226).  For the preset tag the stored preset
index must lie in the inclusive preset range; for the bandLevels tag the list
is delegated to isBandInRange; any other tag answers false.  Reading the union
with a tag different from the stored variant is the aborting wrong-tag access,
modelled as none (the test only ever pairs a tag with a matching payload). -/
def isTagInRange (mPresetIndex mBandIndex : Int × Int) (tag : EqualizerTag)
    (eq : Equalizer) : Option Bool :=
  match tag with
  | EqualizerTag.preset =>
    match eq with
    | Equalizer.preset index =>
      some (decide (index ≥ mPresetIndex.1 ∧ index ≤ mPresetIndex.2))
    | _ => none
  | EqualizerTag.bandLevels =>
    match eq with
    | Equalizer.bandLevels bandLevel => some (isBandInRange mBandIndex bandLevel)
    | _ => none
  | EqualizerTag.vendor => some false

/-- binder_exception_t values the driver distinguishes; every other code is
kept abstract. -/
inductive BinderStatus where
  | EX_NONE
  | EX_ILLEGAL_ARGUMENT
  | otherStatus (code : Int)
deriving DecidableEq, Repr

/-- The checks one loop iteration of SetAndGetEqualizerParameters records:
the status the driver expects from setParameter, the outcome of the
EXPECT_STATUS on setParameter, and - only when a read-back was performed -
the outcomes of the EXPECT_STATUS on getParameter and of the EXPECT_TRUE on
isEqParameterExpected. -/
structure StepChecks where
  expectedStatus : BinderStatus
  setCheck : Bool
  getCheck : Option Bool
  matchCheck : Option Bool
deriving DecidableEq, Repr

/-- One iteration of the loop of SetAndGetEqualizerParameters (source lines
126-156) over a single (tag, eq) scenario.  The external effect service is
abstracted as the pair of functions setP (setParameter: the status it answers
for a written setting) and getP (getParameter: the status and equalizer
payload it reports back for a queried tag).  The iteration computes validity
with isTagInRange, expects EX_NONE when valid and EX_ILLEGAL_ARGUMENT
otherwise, records the EXPECT_STATUS on the write, and performs a read-back
(EXPECT_STATUS on the read plus EXPECT_TRUE on isEqParameterExpected) exactly
when the expected status is EX_NONE.  A wrong-tag union access inside
isTagInRange or isEqParameterExpected aborts the whole iteration (none). -/
def runStep (mPresetIndex mBandIndex : Int × Int)
    (setP : Equalizer → BinderStatus)
    (getP : EqualizerTag → BinderStatus × Equalizer)
    (tag : EqualizerTag) (eq : Equalizer) : Option StepChecks :=
  match isTagInRange mPresetIndex mBandIndex tag eq with
  | none => none
  | some valid =>
    let expected := if valid then BinderStatus.EX_NONE
                    else BinderStatus.EX_ILLEGAL_ARGUMENT
    let setCheck := decide (setP eq = expected)
    if expected = BinderStatus.EX_NONE then
      match getP tag with
      | (getStatus, getEq) =>
        match isEqParameterExpected eq getEq with
        | none => none
        | some m =>
          some ⟨expected, setCheck, some (decide (getStatus = expected)), some m⟩
    else
      some ⟨expected, setCheck, none, none⟩

/-- The whole loop of SetAndGetEqualizerParameters over the mTags list. -/
def runAll (mPresetIndex mBandIndex : Int × Int)
    (setP : Equalizer → BinderStatus)
    (getP : EqualizerTag → BinderStatus × Equalizer)
    (tags : List (EqualizerTag × Equalizer)) : Option (List StepChecks) :=
  tags.mapM (fun te => runStep mPresetIndex mBandIndex setP getP te.1 te.2)

/-- Equalizer.Preset capability entry: an int index and a human readable
name. -/
structure EqPreset where
  index : Int
  name : String
deriving DecidableEq, Repr

/-- Equalizer.BandFrequency capability entry: an int band index and the
inclusive frequency range of the band. -/
structure EqBandFrequency where
  index : Int
  minFreq : Int
  maxFreq : Int
deriving DecidableEq, Repr

/-- The fields of Equalizer.Capability the range derivation reads. -/
structure EqCapability where
  bandFrequencies : List EqBandFrequency
  presets : List EqPreset
deriving DecidableEq, Repr

/-- setPresetIndexRange (source lines 95-100): the pair of the minimal and the
maximal index over cap.presets, computed by std.minmax_element with the
comparator a.index < b.index.  On an empty list std.minmax_element yields the
end iterator for both positions and the source dereferences it - undefined
behaviour, modelled as none. -/
def setPresetIndexRange (cap : EqCapability) : Option (Int × Int) :=
  match cap.presets with
  | [] => none
  | p :: rest =>
    some (rest.foldl (fun acc q => (min acc.1 q.index, max acc.2 q.index))
      (p.index, p.index))

/-- setBandIndexRange (source lines 101-106): as setPresetIndexRange, over
cap.bandFrequencies. -/
def setBandIndexRange (cap : EqCapability) : Option (Int × Int) :=
  match cap.bandFrequencies with
  | [] => none
  | p :: rest =>
    some (rest.foldl (fun acc q => (min acc.1 q.index, max acc.2 q.index))
      (p.index, p.index))

/-- The scenario the SetAndGetPresetOutOfLowerBound test (source lines
250-253) adds to mTags: addPresetParam(mPresetIndex.second - 1), i.e. a preset
write of one below the discovered maximum preset index. -/
def setAndGetPresetOutOfLowerBoundParam (mPresetIndex : Int × Int) :
    EqualizerTag × Equalizer :=
  (EqualizerTag.preset, Equalizer.preset (mPresetIndex.2 - 1))

/-- C4: isBandInRange is true exactly when every entry's index lies in the
inclusive band range; any non-empty all-in-range list passes, and one
out-of-range entry anywhere makes the whole batch fail. -/
theorem isBandInRange_iff_all (p : Int × Int) :
    (∀ l, isBandInRange p l = true ↔ ∀ bl ∈ l, p.1 ≤ bl.index ∧ bl.index ≤ p.2) ∧
    (∀ l, l ≠ [] → (∀ bl ∈ l, p.1 ≤ bl.index ∧ bl.index ≤ p.2) →
      isBandInRange p l = true) ∧
    (∀ l1 l2 x, (x.index < p.1 ∨ p.2 < x.index) →
      isBandInRange p (l1 ++ x :: l2) = false) := by
  have hiff : ∀ l, isBandInRange p l = true ↔
      ∀ bl ∈ l, p.1 ≤ bl.index ∧ bl.index ≤ p.2 := by
    intro l
    induction l with
    | nil => simp [isBandInRange]
    | cons a t ih =>
      by_cases h : a.index < p.1 ∨ a.index > p.2
      · rw [isBandInRange, if_pos h]
        constructor
        · intro hfalse; exact absurd hfalse (by simp)
        · intro hall
          have := hall a (by simp)
          omega
      · rw [isBandInRange, if_neg h, ih]
        constructor
        · intro hall bl hbl
          rcases List.mem_cons.mp hbl with rfl | hbl
          · omega
          · exact hall bl hbl
        · intro hall bl hbl
          exact hall bl (List.mem_cons_of_mem a hbl)
  refine ⟨hiff, ?_, ?_⟩
  · intro l _ hall
    exact (hiff l).mpr hall
  · intro l1 l2 x hx
    induction l1 with
    | nil =>
      rw [List.nil_append, isBandInRange, if_pos (by omega)]
    | cons a t ih =>
      rw [List.cons_append, isBandInRange]
      by_cases h : a.index < p.1 ∨ a.index > p.2
      · rw [if_pos h]
      · rw [if_neg h]; exact ih

theorem isBandInRange_iff_all_witness :
    ((BandLevel.mk 5 0).index < (0 : Int) ∨ (4 : Int) < (BandLevel.mk 5 0).index) ∧
    isBandInRange (0, 4) ([⟨1, 2⟩] ++ BandLevel.mk 5 0 :: []) = false :=
  ⟨by decide, (isBandInRange_iff_all (0, 4)).2.2 [⟨1, 2⟩] [] ⟨5, 0⟩ (by decide)⟩

/-- C5: for a capability with presetMin at most presetMax, the preset range
check accepts exactly the indices of the inclusive range: true at both
endpoints, false one below the minimum and one above the maximum. -/
theorem isTagInRange_preset_bounds (pmin pmax : Int) (bIdx : Int × Int)
    (h : pmin ≤ pmax) :
    (∀ i : Int,
      isTagInRange (pmin, pmax) bIdx EqualizerTag.preset (Equalizer.preset i)
        = some true ↔ pmin ≤ i ∧ i ≤ pmax) ∧
    isTagInRange (pmin, pmax) bIdx EqualizerTag.preset (Equalizer.preset pmin)
      = some true ∧
    isTagInRange (pmin, pmax) bIdx EqualizerTag.preset (Equalizer.preset pmax)
      = some true ∧
    isTagInRange (pmin, pmax) bIdx EqualizerTag.preset (Equalizer.preset (pmin - 1))
      = some false ∧
    isTagInRange (pmin, pmax) bIdx EqualizerTag.preset (Equalizer.preset (pmax + 1))
      = some false := by
  refine ⟨?_, ?_, ?_, ?_, ?_⟩ <;> simp [isTagInRange] <;> omega

theorem isTagInRange_preset_bounds_witness :
    (0 : Int) ≤ 9 ∧
    isTagInRange (0, 9) (0, 4) EqualizerTag.preset (Equalizer.preset 9)
      = some true :=
  ⟨by decide, (isTagInRange_preset_bounds 0 9 (0, 4) (by decide)).2.2.1⟩

/-- C2 counterexample: for expected Preset(0) and observed BandLevels([]) the
comparison does not return false - the wrong-variant union access aborts
(modelled none). -/
theorem matches_mixed_variant_not_false :
    isEqParameterExpected (Equalizer.preset 0) (Equalizer.bandLevels []) = none ∧
    (none : Option Bool) ≠ some false := by
  exact ⟨rfl, by simp⟩

/-- C2 (amended): whenever expected and observed hold different variants among
Preset and BandLevels, the comparison never returns false (nor true): after the
non-fatal tag expectation it reads the expected parameter with the observed
parameter's variant, a wrong-tag union access that aborts (modelled none). -/
theorem matches_mixed_variants_abort (i : Int) (l : List BandLevel) :
    isEqParameterExpected (Equalizer.preset i) (Equalizer.bandLevels l) = none ∧
    isEqParameterExpected (Equalizer.bandLevels l) (Equalizer.preset i) = none := by
  constructor <;> simp [isEqParameterExpected]

/-- C7: evaluated at the concrete capability range [0, 9], the
SetAndGetPresetOutOfLowerBound scenario writes Preset(8), i.e. one below the
maximum preset index, which is in range - not Preset(-1), one below the
minimum, as its name and the specification intend. -/
theorem presetOutOfLowerBound_eval :
    setAndGetPresetOutOfLowerBoundParam (0, 9)
      = (EqualizerTag.preset, Equalizer.preset 8) ∧
    Equalizer.preset 8 ≠ Equalizer.preset (0 - 1) ∧
    isTagInRange (0, 9) (0, 4) EqualizerTag.preset (Equalizer.preset 8)
      = some true := by
  refine ⟨by decide, by decide, by decide⟩

/-- C8: on an empty preset or band list the range derivation does not produce
a guarded EmptyCapability failure value distinct from a crash: the source
dereferences the end iterator returned by std.minmax_element (undefined
behaviour, modelled none); on a non-empty list it returns the true minimum and
maximum of the indices. -/
theorem setIndexRange_empty_eval :
    setPresetIndexRange ⟨[], []⟩ = none ∧
    setBandIndexRange ⟨[], []⟩ = none ∧
    setBandIndexRange ⟨[⟨3, 100, 200⟩, ⟨1, 50, 99⟩], []⟩ = some (1, 3) := by
  refine ⟨rfl, rfl, by decide⟩

/-- C10: an empty BandLevels list is vacuously in range, so the driver
classifies the write as valid and expects EX_NONE from setParameter. -/
theorem emptyBandLevels_inRange (pIdx bIdx : Int × Int) :
    isBandInRange bIdx [] = true ∧
    isTagInRange pIdx bIdx EqualizerTag.bandLevels (Equalizer.bandLevels [])
      = some true ∧
    ∀ setP getP st,
      runStep pIdx bIdx setP getP EqualizerTag.bandLevels (Equalizer.bandLevels [])
        = some st →
      st.expectedStatus = BinderStatus.EX_NONE := by
  refine ⟨rfl, rfl, ?_⟩
  intro setP getP st h
  rcases hg : getP EqualizerTag.bandLevels with ⟨gs, geq⟩
  rcases hm : isEqParameterExpected (Equalizer.bandLevels []) geq with _ | m
  · simp [runStep, isTagInRange, isBandInRange, hg, hm] at h
  · simp [runStep, isTagInRange, isBandInRange, hg, hm] at h
    rw [← h]

theorem emptyBandLevels_inRange_witness :
    (StepChecks.mk BinderStatus.EX_NONE true (some true) (some true)).expectedStatus
      = BinderStatus.EX_NONE :=
  (emptyBandLevels_inRange (0, 9) (0, 4)).2.2
    (fun _ => BinderStatus.EX_NONE)
    (fun _ => (BinderStatus.EX_NONE, Equalizer.bandLevels []))
    ⟨BinderStatus.EX_NONE, true, some true, some true⟩ (by decide)

theorem blLtB_irrefl (a : BandLevel) : blLtB a a = false := by
  simp [blLtB]

theorem ne_of_blLtB {a b : BandLevel} (h : blLtB a b = true) : a ≠ b := by
  intro he
  subst he
  rw [blLtB_irrefl] at h
  exact absurd h (by simp)

theorem blLtB_eq_of_not_lt {a b : BandLevel} (h1 : blLtB a b = false)
    (h2 : blLtB b a = false) : a = b := by
  cases a with
  | mk ai al =>
    cases b with
    | mk bi bl =>
      simp only [blLtB, decide_eq_false_iff_not] at h1 h2
      simp only [BandLevel.mk.injEq]
      constructor <;> omega

theorem blLtB_of_index_lt {a b : BandLevel} (h : a.index < b.index) :
    blLtB a b = true := by
  simp only [blLtB, decide_eq_true_eq]
  exact Or.inl h

theorem insertBL_perm (x : BandLevel) (l : List BandLevel) :
    List.Perm (insertBL x l) (x :: l) := by
  induction l with
  | nil => exact List.Perm.refl _
  | cons y ys ih =>
    rw [insertBL]
    by_cases h : x.index ≤ y.index
    · rw [if_pos h]
    · rw [if_neg h]
      exact (ih.cons y).trans (List.Perm.swap x y ys)

theorem sortByIndex_perm (l : List BandLevel) : List.Perm (sortByIndex l) l := by
  induction l with
  | nil => exact List.Perm.refl _
  | cons x xs ih =>
    rw [sortByIndex]
    exact (insertBL_perm x (sortByIndex xs)).trans (ih.cons x)

theorem mem_sortByIndex {x : BandLevel} {l : List BandLevel} :
    x ∈ sortByIndex l ↔ x ∈ l := (sortByIndex_perm l).mem_iff

theorem pairwise_insertBL {x : BandLevel} {l : List BandLevel}
    (h : l.Pairwise (fun a b => a.index ≤ b.index)) :
    (insertBL x l).Pairwise (fun a b => a.index ≤ b.index) := by
  induction l with
  | nil => simp [insertBL]
  | cons y ys ih =>
    rw [List.pairwise_cons] at h
    rw [insertBL]
    by_cases hxy : x.index ≤ y.index
    · rw [if_pos hxy]
      refine List.Pairwise.cons ?_ (List.Pairwise.cons h.1 h.2)
      intro z hz
      rcases List.mem_cons.mp hz with rfl | hz2
      · exact hxy
      · exact le_trans hxy (h.1 z hz2)
    · rw [if_neg hxy]
      refine List.Pairwise.cons ?_ (ih h.2)
      intro z hz
      have hz2 : z ∈ x :: ys := (insertBL_perm x ys).mem_iff.mp hz
      rcases List.mem_cons.mp hz2 with rfl | hz3
      · omega
      · exact h.1 z hz3

theorem sortByIndex_pairwise (l : List BandLevel) :
    (sortByIndex l).Pairwise (fun a b => a.index ≤ b.index) := by
  induction l with
  | nil => simp [sortByIndex]
  | cons x xs ih =>
    rw [sortByIndex]
    exact pairwise_insertBL ih

theorem sortByIndex_eq_of_chain {l : List BandLevel}
    (h : l.Chain' (fun a b => a.index ≤ b.index)) : sortByIndex l = l := by
  induction l with
  | nil => rfl
  | cons x xs ih =>
    rw [sortByIndex]
    cases xs with
    | nil => rfl
    | cons y ys =>
      rw [List.chain'_cons] at h
      rw [ih h.2, insertBL, if_pos h.1]

theorem stdUniqueAux_sublist (l : List BandLevel) :
    ∀ prev, List.Sublist (stdUniqueAux prev l) l := by
  induction l with
  | nil => intro prev; exact List.Sublist.refl _
  | cons b rest ih =>
    intro prev
    rw [stdUniqueAux]
    by_cases h : prev = b
    · rw [if_pos h]
      exact List.Sublist.cons b (ih prev)
    · rw [if_neg h]
      exact List.Sublist.cons₂ b (ih b)

theorem stdUnique_sublist (l : List BandLevel) : List.Sublist (stdUnique l) l := by
  cases l with
  | nil => exact List.Sublist.refl _
  | cons a rest => exact List.Sublist.cons₂ a (stdUniqueAux_sublist rest a)

theorem stdUniqueAux_chain'_ne (l : List BandLevel) :
    ∀ prev, List.Chain' (fun a b => a ≠ b) (prev :: stdUniqueAux prev l) := by
  induction l with
  | nil => intro prev; exact List.chain'_singleton prev
  | cons b rest ih =>
    intro prev
    rw [stdUniqueAux]
    by_cases h : prev = b
    · rw [if_pos h]
      exact ih prev
    · rw [if_neg h]
      rw [List.chain'_cons]
      exact ⟨h, ih b⟩

theorem stdUnique_chain'_ne (l : List BandLevel) :
    List.Chain' (fun a b => a ≠ b) (stdUnique l) := by
  cases l with
  | nil => exact List.chain'_nil
  | cons a rest => exact stdUniqueAux_chain'_ne rest a

theorem mem_stdUniqueAux {x : BandLevel} (l : List BandLevel) :
    ∀ prev, x ∈ prev :: l → x ∈ prev :: stdUniqueAux prev l := by
  induction l with
  | nil => intro prev h; exact h
  | cons b rest ih =>
    intro prev h
    rw [stdUniqueAux]
    by_cases hpb : prev = b
    · rw [if_pos hpb]
      apply ih prev
      rcases List.mem_cons.mp h with rfl | h2
      · exact List.mem_cons_self _ _
      · rcases List.mem_cons.mp h2 with rfl | h3
        · rw [hpb]; exact List.mem_cons_self _ _
        · exact List.mem_cons_of_mem _ h3
    · rw [if_neg hpb]
      rcases List.mem_cons.mp h with rfl | h2
      · exact List.mem_cons_self _ _
      · exact List.mem_cons_of_mem _ (ih b h2)

theorem mem_stdUnique {x : BandLevel} {l : List BandLevel} :
    x ∈ stdUnique l ↔ x ∈ l := by
  constructor
  · intro h
    exact (stdUnique_sublist l).subset h
  · intro h
    cases l with
    | nil => simp at h
    | cons a rest => exact mem_stdUniqueAux rest a h

theorem stdUniqueAux_eq_of_chain {l : List BandLevel} :
    ∀ prev, List.Chain' (fun a b => a ≠ b) (prev :: l) → stdUniqueAux prev l = l := by
  induction l with
  | nil => intro prev _; rfl
  | cons b rest ih =>
    intro prev h
    rw [List.chain'_cons] at h
    rw [stdUniqueAux, if_neg h.1, ih b h.2]

theorem stdUnique_eq_of_chain {l : List BandLevel}
    (h : List.Chain' (fun a b => a ≠ b) l) : stdUnique l = l := by
  cases l with
  | nil => rfl
  | cons a rest =>
    rw [stdUnique, stdUniqueAux_eq_of_chain a h]

theorem chain'_and {P Q : BandLevel → BandLevel → Prop} :
    ∀ l : List BandLevel, List.Chain' P l → List.Chain' Q l →
      List.Chain' (fun a b => P a b ∧ Q a b) l := by
  intro l
  induction l with
  | nil => intro _ _; exact List.chain'_nil
  | cons a t ih =>
    intro hp hq
    cases t with
    | nil => exact List.chain'_singleton a
    | cons b t2 =>
      rw [List.chain'_cons] at hp hq ⊢
      exact ⟨⟨hp.1, hq.1⟩, ih hp.2 hq.2⟩

theorem includes_nil_left (l : List BandLevel) : includes l [] = true := by
  cases l <;> rfl

theorem includes_cons_cons (a b : BandLevel) (t1 t2 : List BandLevel) :
    includes (a :: t1) (b :: t2) =
      if blLtB b a then false
      else if blLtB a b then includes t1 (b :: t2)
      else includes t1 t2 := rfl

/-- Correctness of the std.includes merge walk on sorted ranges: when the
first range is sorted (weakly, in the lexicographic order) and the second
range is strictly sorted, the walk answers true exactly when every element of
the second range occurs in the first. -/
theorem includes_iff_subset :
    ∀ l1 l2 : List BandLevel,
      l1.Pairwise (fun a b => blLtB b a = false) →
      l2.Pairwise (fun a b => blLtB a b = true) →
      (includes l1 l2 = true ↔ ∀ x ∈ l2, x ∈ l1) := by
  intro l1
  induction l1 with
  | nil =>
    intro l2 _ _
    cases l2 with
    | nil => simp [includes]
    | cons b t2 =>
      rw [includes]
      constructor
      · intro hf; exact absurd hf (by simp)
      · intro hall
        exact absurd (hall b (List.mem_cons_self _ _)) (by simp)
  | cons a t1 ih =>
    intro l2 h1 h2
    cases l2 with
    | nil => simp [includes_nil_left]
    | cons b t2 =>
      rw [includes_cons_cons]
      rw [List.pairwise_cons] at h1
      by_cases hba : blLtB b a = true
      · rw [if_pos hba]
        constructor
        · intro hf; exact absurd hf (by simp)
        · intro hall
          exfalso
          rcases List.mem_cons.mp (hall b (List.mem_cons_self _ _)) with rfl | hb2
          · rw [blLtB_irrefl] at hba
            exact absurd hba (by simp)
          · rw [h1.1 b hb2] at hba
            exact absurd hba (by simp)
      · rw [if_neg hba]
        by_cases hab : blLtB a b = true
        · rw [if_pos hab]
          rw [ih (b :: t2) h1.2 h2]
          constructor
          · intro hall x hx
            exact List.mem_cons_of_mem a (hall x hx)
          · intro hall x hx
            rcases List.mem_cons.mp (hall x hx) with rfl | hxt
            · exfalso
              rcases List.mem_cons.mp hx with heq | hxt2
              · rw [heq] at hab
                rw [blLtB_irrefl] at hab
                exact absurd hab (by simp)
              · rw [List.pairwise_cons] at h2
                exact hba (h2.1 _ hxt2)
            · exact hxt
        · rw [if_neg hab]
          rw [Bool.not_eq_true] at hba hab
          have hEq : a = b := blLtB_eq_of_not_lt hab hba
          subst hEq
          rw [List.pairwise_cons] at h2
          rw [ih t2 h1.2 h2.2]
          constructor
          · intro hall x hx
            rcases List.mem_cons.mp hx with rfl | hx2
            · exact List.mem_cons_self _ _
            · exact List.mem_cons_of_mem _ (hall x hx2)
          · intro hall x hx
            rcases List.mem_cons.mp (hall x (List.mem_cons_of_mem _ hx)) with rfl | hxt
            · exfalso
              have := h2.1 _ hx
              rw [blLtB_irrefl] at this
              exact absurd this (by simp)
            · exact hxt

/-- For an expected list whose indices are pairwise distinct, the source's
normalization reduces to the sort alone, and the sorted list is strictly
sorted in the lexicographic order std.includes assumes of its second range. -/
theorem normalize_of_pairwise_ne {l : List BandLevel}
    (h : l.Pairwise (fun a b => a.index ≠ b.index)) :
    normalizeBandLevels l = sortByIndex l ∧
    (sortByIndex l).Pairwise (fun a b => blLtB a b = true) := by
  have hle := sortByIndex_pairwise l
  have hne : (sortByIndex l).Pairwise (fun a b => a.index ≠ b.index) :=
    ((sortByIndex_perm l).pairwise_iff (fun hab => hab.symm)).mpr h
  have hlt : (sortByIndex l).Pairwise (fun a b => blLtB a b = true) :=
    (hle.and hne).imp (fun hab => blLtB_of_index_lt (lt_of_le_of_ne hab.1 hab.2))
  have hchain : List.Chain' (fun a b => a ≠ b) (sortByIndex l) :=
    List.Pairwise.chain' (hlt.imp (fun hab => ne_of_blLtB hab))
  exact ⟨by rw [normalizeBandLevels, stdUnique_eq_of_chain hchain], hlt⟩

/-- C1 counterexample: expected BandLevels([(0,5)]) and observed
BandLevels([(1,0),(0,5)]) are not structurally equal, the normalized expected
set is contained pairwise in the observed set, yet the comparison answers
false, because std.includes runs with no comparator over an observed range
that is not sorted in the lexicographic BandLevel order. -/
theorem matches_bandLevels_order_sensitive :
    Equalizer.bandLevels [⟨0, 5⟩] ≠ Equalizer.bandLevels [⟨1, 0⟩, ⟨0, 5⟩] ∧
    normalizeBandLevels [⟨0, 5⟩] = [⟨0, 5⟩] ∧
    BandLevel.mk 0 5 ∈ [BandLevel.mk 1 0, BandLevel.mk 0 5] ∧
    isEqParameterExpected (Equalizer.bandLevels [⟨0, 5⟩])
        (Equalizer.bandLevels [⟨1, 0⟩, ⟨0, 5⟩]) = some false := by
  refine ⟨by decide, by decide, by decide, by decide⟩

/-- C1 (amended): for an expected BandLevels write whose entries carry
pairwise distinct band indices and an observed BandLevels read-back whose
entries are sorted in the lexicographic (index, levelMb) order - the
precondition std.includes needs - the comparison answers true exactly when
every (index, level) pair of the expected write occurs in the observed list,
extra observed entries being irrelevant. -/
theorem matches_bandLevels_subset (expectBl targetBl : List BandLevel)
    (hexp : expectBl.Pairwise (fun a b => a.index ≠ b.index))
    (htgt : targetBl.Pairwise (fun a b => blLtB b a = false)) :
    (isEqParameterExpected (Equalizer.bandLevels expectBl)
        (Equalizer.bandLevels targetBl) = some true ↔
      ∀ x ∈ expectBl, x ∈ targetBl) := by
  rcases normalize_of_pairwise_ne hexp with ⟨hnorm, hlt⟩
  by_cases heq : expectBl = targetBl
  · subst heq
    constructor
    · intro _ x hx; exact hx
    · intro _
      rw [isEqParameterExpected, if_pos rfl]
  · have hne : Equalizer.bandLevels expectBl ≠ Equalizer.bandLevels targetBl := by
      simp [heq]
    have hunfold : isEqParameterExpected (Equalizer.bandLevels expectBl)
        (Equalizer.bandLevels targetBl)
        = some (includes targetBl (normalizeBandLevels expectBl)) := by
      rw [isEqParameterExpected, if_neg hne]
    rw [hunfold, hnorm]
    rw [Option.some_inj]
    rw [includes_iff_subset targetBl (sortByIndex expectBl) htgt hlt]
    constructor
    · intro hall x hx
      exact hall x (mem_sortByIndex.mpr hx)
    · intro hall x hx
      exact hall x (mem_sortByIndex.mp hx)

theorem matches_bandLevels_subset_witness :
    List.Pairwise (fun a b : BandLevel => a.index ≠ b.index) [⟨1, -2⟩] ∧
    List.Pairwise (fun a b : BandLevel => blLtB b a = false)
      [⟨0, 0⟩, ⟨1, -2⟩, ⟨2, 0⟩] ∧
    isEqParameterExpected (Equalizer.bandLevels [⟨1, -2⟩])
        (Equalizer.bandLevels [⟨0, 0⟩, ⟨1, -2⟩, ⟨2, 0⟩]) = some true :=
  ⟨by decide, by decide,
    (matches_bandLevels_subset [⟨1, -2⟩] [⟨0, 0⟩, ⟨1, -2⟩, ⟨2, 0⟩]
      (by decide) (by decide)).mpr (by decide)⟩

/-- C3 counterexample: on input [(0,1),(0,2)] - two entries with the same
index and different levels - the normalization keeps both entries, because
std.unique is called with no predicate and therefore drops only consecutive
entries equal as whole (index, level) pairs; the normalized result does not
have pairwise distinct indices. -/
theorem normalize_keeps_duplicate_indices :
    normalizeBandLevels [⟨0, 1⟩, ⟨0, 2⟩] = [⟨0, 1⟩, ⟨0, 2⟩] ∧
    ¬ List.Pairwise (fun a b : BandLevel => a.index ≠ b.index)
        (normalizeBandLevels [⟨0, 1⟩, ⟨0, 2⟩]) := by
  refine ⟨by decide, by decide⟩

/-- C3 (amended): the normalization inside the comparison sorts by index and
drops an entry only when it is structurally equal - same index and same
level - to the entry kept just before it: the result is weakly sorted by
index with no two adjacent entries equal, and it carries exactly the set of
entries of the input, so entries sharing an index but differing in level all
survive and indices need not be pairwise distinct. -/
theorem normalize_spec (l : List BandLevel) :
    List.Chain' (fun a b => a.index ≤ b.index ∧ a ≠ b) (normalizeBandLevels l) ∧
    (∀ x, x ∈ normalizeBandLevels l ↔ x ∈ l) := by
  constructor
  · apply chain'_and
    · exact List.Pairwise.chain'
        (List.Pairwise.sublist (stdUnique_sublist _) (sortByIndex_pairwise l))
    · exact stdUnique_chain'_ne _
  · intro x
    rw [normalizeBandLevels, mem_stdUnique, mem_sortByIndex]

/-- C9: the normalization is a no-op on a list that is already sorted by index
with pairwise distinct indices (strictly sorted by index): the sort leaves a
sorted list unchanged and the duplicate removal drops nothing when no two
adjacent entries are equal. -/
theorem normalize_idempotent_on_normalized {l : List BandLevel}
    (h : List.Chain' (fun a b => a.index < b.index) l) :
    normalizeBandLevels l = l := by
  have hle : List.Chain' (fun a b => a.index ≤ b.index) l :=
    h.imp (fun _ _ hab => le_of_lt hab)
  have hne : List.Chain' (fun a b => a ≠ b) l :=
    h.imp (fun _ _ hab heq => by rw [heq] at hab; omega)
  rw [normalizeBandLevels, sortByIndex_eq_of_chain hle, stdUnique_eq_of_chain hne]

theorem normalize_idempotent_witness :
    List.Chain' (fun a b : BandLevel => a.index < b.index) [⟨0, 7⟩, ⟨2, -3⟩] ∧
    normalizeBandLevels [⟨0, 7⟩, ⟨2, -3⟩] = [⟨0, 7⟩, ⟨2, -3⟩] := by
  have hc : List.Chain' (fun a b : BandLevel => a.index < b.index)
      [⟨0, 7⟩, ⟨2, -3⟩] := by
    rw [List.chain'_cons]
    exact ⟨by decide, List.chain'_singleton _⟩
  exact ⟨hc, normalize_idempotent_on_normalized hc⟩

/-- C6: in every loop iteration of SetAndGetEqualizerParameters that runs to
completion, the driver expects EX_NONE from setParameter exactly when the
range validator accepted the setting and EX_ILLEGAL_ARGUMENT exactly when it
rejected it, and the getParameter read-back together with the
isEqParameterExpected comparison happens exactly when the expected outcome is
EX_NONE - never after an out-of-range write. -/
theorem runStep_eq_none_of_abort (pIdx bIdx : Int × Int)
    (setP : Equalizer → BinderStatus)
    (getP : EqualizerTag → BinderStatus × Equalizer)
    (tag : EqualizerTag) (eq : Equalizer) (gs : BinderStatus) (geq : Equalizer)
    (hv : isTagInRange pIdx bIdx tag eq = some true)
    (hg : getP tag = (gs, geq))
    (hm : isEqParameterExpected eq geq = none) :
    runStep pIdx bIdx setP getP tag eq = none := by
  rw [runStep, hv, hg]
  simp [hm]

theorem runStep_eq_of_valid (pIdx bIdx : Int × Int)
    (setP : Equalizer → BinderStatus)
    (getP : EqualizerTag → BinderStatus × Equalizer)
    (tag : EqualizerTag) (eq : Equalizer) (gs : BinderStatus) (geq : Equalizer)
    (m : Bool)
    (hv : isTagInRange pIdx bIdx tag eq = some true)
    (hg : getP tag = (gs, geq))
    (hm : isEqParameterExpected eq geq = some m) :
    runStep pIdx bIdx setP getP tag eq =
      some ⟨BinderStatus.EX_NONE, decide (setP eq = BinderStatus.EX_NONE),
            some (decide (gs = BinderStatus.EX_NONE)), some m⟩ := by
  rw [runStep, hv, hg]
  simp [hm]

theorem runStep_eq_of_invalid (pIdx bIdx : Int × Int)
    (setP : Equalizer → BinderStatus)
    (getP : EqualizerTag → BinderStatus × Equalizer)
    (tag : EqualizerTag) (eq : Equalizer)
    (hv : isTagInRange pIdx bIdx tag eq = some false) :
    runStep pIdx bIdx setP getP tag eq =
      some ⟨BinderStatus.EX_ILLEGAL_ARGUMENT,
            decide (setP eq = BinderStatus.EX_ILLEGAL_ARGUMENT), none, none⟩ := by
  rw [runStep, hv]
  simp

theorem runStep_contract (pIdx bIdx : Int × Int)
    (setP : Equalizer → BinderStatus)
    (getP : EqualizerTag → BinderStatus × Equalizer)
    (tag : EqualizerTag) (eq : Equalizer) (st : StepChecks)
    (h : runStep pIdx bIdx setP getP tag eq = some st) :
    (st.expectedStatus = BinderStatus.EX_NONE ↔
      isTagInRange pIdx bIdx tag eq = some true) ∧
    (st.expectedStatus = BinderStatus.EX_ILLEGAL_ARGUMENT ↔
      isTagInRange pIdx bIdx tag eq = some false) ∧
    (st.getCheck.isSome = true ↔ st.expectedStatus = BinderStatus.EX_NONE) ∧
    (st.matchCheck.isSome = true ↔ st.expectedStatus = BinderStatus.EX_NONE) := by
  rcases hv : isTagInRange pIdx bIdx tag eq with _ | valid
  · rw [runStep, hv] at h
    exact absurd h (by simp)
  · cases valid with
    | true =>
      rcases hg : getP tag with ⟨gs, geq⟩
      rcases hm : isEqParameterExpected eq geq with _ | m
      · rw [runStep_eq_none_of_abort pIdx bIdx setP getP tag eq gs geq hv hg hm] at h
        exact absurd h (by simp)
      · rw [runStep_eq_of_valid pIdx bIdx setP getP tag eq gs geq m hv hg hm] at h
        rw [Option.some_inj] at h
        subst h
        refine ⟨by simp [hv], by simp [hv], by simp, by simp⟩
    | false =>
      rw [runStep_eq_of_invalid pIdx bIdx setP getP tag eq hv] at h
      rw [Option.some_inj] at h
      subst h
      refine ⟨by simp [hv], by simp [hv], by simp, by simp⟩

theorem runStep_contract_witness :
    ((StepChecks.mk BinderStatus.EX_ILLEGAL_ARGUMENT true none none).expectedStatus
        = BinderStatus.EX_NONE ↔
      isTagInRange (0, 9) (0, 4) EqualizerTag.preset (Equalizer.preset 10)
        = some true) ∧
    ((StepChecks.mk BinderStatus.EX_ILLEGAL_ARGUMENT true none none).expectedStatus
        = BinderStatus.EX_ILLEGAL_ARGUMENT ↔
      isTagInRange (0, 9) (0, 4) EqualizerTag.preset (Equalizer.preset 10)
        = some false) ∧
    ((StepChecks.mk BinderStatus.EX_ILLEGAL_ARGUMENT true none none).getCheck.isSome
        = true ↔
      (StepChecks.mk BinderStatus.EX_ILLEGAL_ARGUMENT true none none).expectedStatus
        = BinderStatus.EX_NONE) ∧
    ((StepChecks.mk BinderStatus.EX_ILLEGAL_ARGUMENT true none none).matchCheck.isSome
        = true ↔
      (StepChecks.mk BinderStatus.EX_ILLEGAL_ARGUMENT true none none).expectedStatus
        = BinderStatus.EX_NONE) :=
  runStep_contract (0, 9) (0, 4) (fun _ => BinderStatus.EX_ILLEGAL_ARGUMENT)
    (fun _ => (BinderStatus.EX_NONE, Equalizer.preset 0)) EqualizerTag.preset
    (Equalizer.preset 10) ⟨BinderStatus.EX_ILLEGAL_ARGUMENT, true, none, none⟩
    (by decide)
